import Mathlib

/-!
Shallow embedding of `src/containers/archive/stl_types.hpp`: the generic
binary container codec (pair, map, set, string, vector, list) of the
repository.  The underlying byte source (`read_stream_t` / `force_read`)
and the scalar codec for fixed-width 64-bit integers live in
`archive.hpp`, which is not part of the sources; they are modelled from
the specification's collaborator contracts (spec sections 3 and 6).

Error-code convention (spec section 7): `0` success, `-1` hard read
error, `-2` truncated stream, `-3` invalid declared length.
-/

/-- One item a byte source can produce: a data byte, or a hard-error
signal.  Modelled from the spec: "Source: origin abstraction producing
bytes on demand, read-only, may signal hard errors or short reads." -/
inductive StreamItem where
  | byte (b : Nat) : StreamItem
  | err : StreamItem
deriving DecidableEq, Repr

/-- The state of a `read_stream_t`: the items still to be produced. -/
abbrev RStream := List StreamItem

/-- A stream holding exactly the given data bytes (no error signal). -/
def byteStream (bs : List Nat) : RStream := bs.map StreamItem.byte

/-- Modelled from the spec: `force_read(s, buf, sz)` of `archive.hpp`.
Reads up to `n` bytes from the source; `none` means the source reported
a hard error, `some bs` means the source delivered bytes `bs` (fewer
than `n` when the stream ended early).  The second component is the
remaining stream. -/
def forceRead : Nat → RStream → Option (List Nat) × RStream
  | 0, s => (some [], s)
  | _ + 1, [] => (some [], [])
  | _ + 1, StreamItem.err :: s => (none, s)
  | n + 1, StreamItem.byte b :: s =>
      match forceRead n s with
      | (none, s') => (none, s')
      | (some bs, s') => (some (b :: bs), s')

/-- Little-endian byte decomposition: `k` bytes of `n`. -/
def natToLE : Nat → Nat → List Nat
  | 0, _ => []
  | k + 1, n => n % 256 :: natToLE k (n / 256)

/-- Little-endian recomposition of a byte list. -/
def leToNat : List Nat → Nat
  | [] => 0
  | b :: bs => b % 256 + 256 * leToNat bs

/-- Modelled from the spec: the scalar codec's wire form of a
`uint64_t` value (fixed-width 64-bit, spec section 3). -/
def encodeU64 (n : Nat) : List Nat := natToLE 8 n

/-- Reinterpret a 64-bit unsigned value as a signed `int64_t`
(two's complement). -/
def i64ofNat (n : Nat) : Int :=
  if n < 2 ^ 63 then (n : Int) else (n : Int) - 2 ^ 64

/-- Modelled from the spec: the scalar codec's wire form of an
`int64_t` value (two's complement, fixed-width 64-bit). -/
def encodeI64 (z : Int) : List Nat := natToLE 8 (z % 2 ^ 64).toNat

/-- Modelled from the spec: `deserialize(read_stream_t *, uint64_t *)`
of `archive.hpp`.  Reads 8 bytes through `forceRead`; a hard error
yields `-1`, a short read yields `-2` (spec section 7 taxonomy). -/
def deserializeU64 (s : RStream) : Int × Nat × RStream :=
  let r := forceRead 8 s
  match r.1 with
  | none => (-1, 0, r.2)
  | some bs => if bs.length < 8 then (-2, 0, r.2) else (0, leToNat bs, r.2)

/-- Modelled from the spec: `deserialize(read_stream_t *, int64_t *)`
of `archive.hpp`.  Same framing as the unsigned decoder, value taken as
two's complement. -/
def deserializeI64 (s : RStream) : Int × Int × RStream :=
  let r := forceRead 8 s
  match r.1 with
  | none => (-1, 0, r.2)
  | some bs =>
      if bs.length < 8 then (-2, 0, r.2) else (0, i64ofNat (leToNat bs), r.2)

/-- An element codec, the shape the template parameter `T` provides to
the container codecs of `stl_types.hpp`: a default value (`T()`), the
set of values the C++ type can hold, the encoder (`operator<<`), and
the decoder (`deserialize(read_stream_t *, T *)`, taking the current
destination value and returning result code, new destination value and
remaining stream). -/
structure Codec (α : Type) : Type where
  dflt : α
  valid : α → Prop
  ser : α → List Nat
  des : RStream → α → Int × α × RStream

/-- The round-trip contract at a fresh default-constructed destination:
decoding the serialized bytes of a valid value succeeds, yields the
value back and consumes exactly the serialized bytes. -/
def RoundTrip {α : Type} (c : Codec α) : Prop :=
  ∀ v : α, c.valid v → ∀ rest : RStream,
    c.des (byteStream (c.ser v) ++ rest) c.dflt = (0, v, rest)

/-! ### Pair codec (`stl_types.hpp` lines 14-27) -/

/-- `operator<<(write_message_t &, const std::pair<T, U> &)`:
first, then second. -/
def serializePair {α β : Type} (ca : Codec α) (cb : Codec β)
    (p : α × β) : List Nat :=
  ca.ser p.1 ++ cb.ser p.2

/-- `deserialize(read_stream_t *, std::pair<T, U> *)`: decode into
`first`; on failure return that code; otherwise decode into `second`
and return its code. -/
def deserializePair {α β : Type} (ca : Codec α) (cb : Codec β)
    (s : RStream) (p : α × β) : Int × (α × β) × RStream :=
  let r := ca.des s p.1
  if r.1 ≠ 0 then (r.1, (r.2.1, p.2), r.2.2)
  else
    let r2 := cb.des r.2.2 p.2
    (r2.1, (r.2.1, r2.2.1), r2.2.2)

/-- The pair codec packaged as an element codec. -/
def pairCodec {α β : Type} (ca : Codec α) (cb : Codec β) : Codec (α × β) where
  dflt := (ca.dflt, cb.dflt)
  valid := fun p => ca.valid p.1 ∧ cb.valid p.2
  ser := serializePair ca cb
  des := deserializePair ca cb

/-! ### String codec (`stl_types.hpp` lines 98-140) -/

/-- `operator<<(write_message_t &, const std::string &)`: signed
64-bit length, then the raw bytes. -/
def serializeString (str : List Nat) : List Nat :=
  encodeI64 (str.length : Int) ++ str

/-- `deserialize(read_stream_t *, std::string *)`: clear the
destination, read the signed length, reject a negative length with
`-3` before any payload read, otherwise read exactly that many bytes
(`-1` hard error, `-2` short read) and assign them on success. -/
def deserializeString (s : RStream) (_out : List Nat) :
    Int × List Nat × RStream :=
  let r := deserializeI64 s
  if r.1 ≠ 0 then (r.1, [], r.2.2)
  else if r.2.1 < 0 then (-3, [], r.2.2)
  else
    let f := forceRead r.2.1.toNat r.2.2
    match f.1 with
    | none => (-1, [], f.2)
    | some bs =>
        if bs.length < r.2.1.toNat then (-2, [], f.2) else (0, bs, f.2)

/-- The string codec packaged as an element codec (a `std::string` is a
byte sequence whose size fits an `int64_t`). -/
def stringCodec : Codec (List Nat) where
  dflt := []
  valid := fun v => v.length < 2 ^ 63
  ser := serializeString
  des := deserializeString

/-- The `uint64_t` scalar codec packaged as an element codec (used to
instantiate the generic container codecs in concrete examples). -/
def u64Codec : Codec Nat where
  dflt := 0
  valid := fun n => n < 2 ^ 64
  ser := encodeU64
  des := fun s _ => deserializeU64 s

/-! ### Vector codec (`stl_types.hpp` lines 142-169) -/

/-- A vector decode either produces a defined result (code, final
destination contents, remaining stream) or reaches the undefined
out-of-bounds access of loop iteration `i = 1` (see below). -/
inductive VecResult (α : Type) where
  | ok (r : Int × List α × RStream) : VecResult α
  | ub : VecResult α
deriving DecidableEq

/-- `operator<<(write_message_t &, const std::vector<T> &)`: unsigned
64-bit count, then each element in order. -/
def serializeVector {α : Type} (c : Codec α) (v : List α) : List Nat :=
  encodeU64 v.length ++ (v.map c.ser).flatten

/-- `deserialize(read_stream_t *, std::vector<T> *)`, lines 154-169 of
`stl_types.hpp`.  The loop body at line 164 is `deserialize(s, &v[i])`
where `v` has type `std::vector<T> *`, so `v[i]` is pointer arithmetic
(`*(v + i)`), not element access (`(*v)[i]`): overload resolution picks
this vector decoder again, never the element decoder.  Hence: clear;
read the count (failure returns with the cleared destination); resize
to `sz` default elements; if `sz = 0` return 0.  Otherwise iteration
`i = 0` re-enters this decoder on `&v[0] = v` itself — clearing the
just-resized vector and consuming the following bytes as a fresh
vector; its failure is returned unchanged.  If it succeeds and
`sz = 1` the loop ends with the destination as the nested decode left
it; if it succeeds and `sz ≥ 2`, iteration `i = 1` dereferences the
out-of-bounds vector pointer `v + 1`, which has no defined behaviour
(`VecResult.ub`).  Termination: each re-entry first consumes the eight
count bytes, so the stream length strictly decreases. -/
def deserializeVector {α : Type} (c : Codec α) (s : RStream) (_v : List α) :
    VecResult α :=
  let r := deserializeU64 s
  if h1 : r.1 ≠ 0 then VecResult.ok (r.1, [], r.2.2)
  else if h2 : r.2.1 = 0 then VecResult.ok (0, [], r.2.2)
  else
    match deserializeVector c r.2.2 (List.replicate r.2.1 c.dflt) with
    | VecResult.ub => VecResult.ub
    | VecResult.ok r2 =>
        if r2.1 ≠ 0 then VecResult.ok r2
        else if r.2.1 = 1 then VecResult.ok r2
        else VecResult.ub
termination_by s.length
decreasing_by
  have hfr : ∀ (n : Nat) (t : RStream) (bs : List Nat),
      (forceRead n t).1 = some bs →
      (forceRead n t).2.length + bs.length ≤ t.length := by
    intro n
    induction n with
    | zero =>
        intro t bs h
        simp only [forceRead] at h ⊢
        obtain rfl : ([] : List Nat) = bs := Option.some.inj h
        simp
    | succ n ih =>
        intro t bs h
        cases t with
        | nil =>
            simp only [forceRead] at h ⊢
            obtain rfl : ([] : List Nat) = bs := Option.some.inj h
            simp
        | cons it t0 =>
            cases it with
            | err => simp [forceRead] at h
            | byte b =>
                simp only [forceRead] at h ⊢
                cases hf0 : forceRead n t0 with
                | mk o s1 =>
                    rw [hf0] at h
                    cases o with
                    | none =>
                        exact Option.noConfusion
                          (show (none : Option (List Nat)) = some bs from h)
                    | some bs0 =>
                        obtain rfl : b :: bs0 = bs :=
                          Option.some.inj (show some (b :: bs0) = some bs from h)
                        have hle : s1.length + bs0.length ≤ t0.length := by
                          have h2 := ih t0 bs0 (by rw [hf0])
                          rw [hf0] at h2
                          exact h2
                        show s1.length + (b :: bs0).length ≤
                          (StreamItem.byte b :: t0).length
                        simp only [List.length_cons]
                        omega
  have h0 : (deserializeU64 s).1 = 0 := not_not.mp h1
  cases hf : (forceRead 8 s).1 with
  | none =>
      have hx : (deserializeU64 s).1 = -1 := by simp [deserializeU64, hf]
      rw [h0] at hx
      exact absurd hx (by decide)
  | some bs =>
      have hs2 : (deserializeU64 s).2.2 = (forceRead 8 s).2 := by
        by_cases hl : bs.length < 8 <;> simp [deserializeU64, hf, hl]
      by_cases hl : bs.length < 8
      · have hx : (deserializeU64 s).1 = -2 := by
          simp [deserializeU64, hf, hl]
        rw [h0] at hx
        exact absurd hx (by decide)
      · have hle := hfr 8 s bs hf
        rw [hs2]
        omega


/-! ### List codec (`stl_types.hpp` lines 172-199) -/

/-- `operator<<(write_message_t &, const std::list<T> &)`: same framing
as the vector codec. -/
def serializeList {α : Type} (c : Codec α) (v : List α) : List Nat :=
  encodeU64 v.length ++ (v.map c.ser).flatten

/-- The per-iteration loop of the list decoder: push back a
default-constructed element, then decode directly into it. -/
def listDesLoop {α : Type} (c : Codec α) :
    Nat → RStream → List α → Int × List α × RStream
  | 0, s, v => (0, v, s)
  | n + 1, s, v =>
      let r := c.des s c.dflt
      if r.1 ≠ 0 then (r.1, v ++ [r.2.1], r.2.2)
      else listDesLoop c n r.2.2 (v ++ [r.2.1])

/-- `deserialize(read_stream_t *, std::list<T> *)`: read the count,
then append `sz` decoded elements to the destination.  Note: unlike
the other container decoders, the source performs no `clear()` on the
destination. -/
def deserializeList {α : Type} (c : Codec α) (s : RStream) (v : List α) :
    Int × List α × RStream :=
  let r := deserializeU64 s
  if r.1 ≠ 0 then (r.1, v, r.2.2)
  else listDesLoop c r.2.1 r.2.2 v

/-- The list codec packaged as an element codec. -/
def listCodec {α : Type} (c : Codec α) : Codec (List α) where
  dflt := []
  valid := fun v => v.length < 2 ^ 64 ∧ ∀ x ∈ v, c.valid x
  ser := serializeList c
  des := deserializeList c

/-! ### Ordered containers (`stl_types.hpp` lines 29-96)

`std::map` and `std::set` are modelled as lists sorted strictly by key
(their tree invariant).  Insertion with a position hint follows the
C++ associative-container contract. -/

/-- Ordinary ordered insertion with unique keys, the semantics of
`std::map::insert(value)` / `std::set::insert(value)` on the sorted
representation: walk to the first key not below the new one; a
duplicate key leaves the container unchanged (the existing element is
kept). -/
def sortedInsertBy {γ κ : Type} [LinearOrder κ] (key : γ → κ) (a : γ) :
    List γ → List γ
  | [] => [a]
  | b :: l =>
      if key a < key b then a :: b :: l
      else if key b < key a then b :: sortedInsertBy key a l
      else b :: l

/-- Whether position `i` is a usable hint for inserting an element with
key `key a`: `i` is in range, the element before `i` (if any) has a
smaller key and the element at `i` (if any) a larger one. -/
def hintOk {γ κ : Type} [LinearOrder κ] (key : γ → κ) (m : List γ)
    (i : Nat) (a : γ) : Bool :=
  decide (i ≤ m.length) &&
  (match i with
   | 0 => true
   | j + 1 =>
       match m[j]? with
       | some b => decide (key b < key a)
       | none => false) &&
  (match m[i]? with
   | some b => decide (key a < key b)
   | none => true)

/-- Modelled from the spec: `std::map::insert(hint, value)` /
`std::set::insert(hint, value)` (spec section 4.4 "position hint").
If the element fits directly at the hinted position it is inserted
there in constant time; otherwise an ordinary insertion is performed.
Returns the position of the element with the inserted key together
with the new container. -/
def hintedInsertBy {γ κ : Type} [LinearOrder κ] (key : γ → κ)
    (m : List γ) (i : Nat) (a : γ) : Nat × List γ :=
  if hintOk key m i a then (i, m.take i ++ a :: m.drop i)
  else
    ((sortedInsertBy key a m).findIdx (fun b => decide (key b = key a)),
     sortedInsertBy key a m)

/-- The association of a key in the container: the first element whose
key matches. -/
def lookupKey {γ κ : Type} [LinearOrder κ] (key : γ → κ) (m : List γ)
    (k : κ) : Option γ :=
  m.find? (fun x => decide (key x = k))

/-- The shared decode loop of the map and set decoders: decode one
element into a fresh default destination, then insert it with the
position hint returned by the previous insertion. -/
def ordDesLoop {γ κ : Type} [LinearOrder κ]
    (dec : RStream → Int × γ × RStream) (key : γ → κ) :
    Nat → RStream → Nat → List γ → Int × List γ × RStream
  | 0, s, _, m => (0, m, s)
  | n + 1, s, pos, m =>
      let r := dec s
      if r.1 ≠ 0 then (r.1, m, r.2.2)
      else
        let pm := hintedInsertBy key m pos r.2.1
        ordDesLoop dec key n r.2.2 pm.1 pm.2

/-- Modelled from the spec: the same decode loop "inserting the same
elements in the same order without a position hint" (spec section
4.4). -/
def ordDesLoopNoHint {γ κ : Type} [LinearOrder κ]
    (dec : RStream → Int × γ × RStream) (key : γ → κ) :
    Nat → RStream → List γ → Int × List γ × RStream
  | 0, s, m => (0, m, s)
  | n + 1, s, m =>
      let r := dec s
      if r.1 ≠ 0 then (r.1, m, r.2.2)
      else ordDesLoopNoHint dec key n r.2.2 (sortedInsertBy key r.2.1 m)

/-! ### Map codec (`stl_types.hpp` lines 29-64) -/

/-- `operator<<(write_message_t &, const std::map<K, V> &)`: unsigned
64-bit count, then each key/value pair in ascending key order (the
container's own iteration order). -/
def serializeMap {κ α : Type} [LinearOrder κ] (ck : Codec κ) (cv : Codec α)
    (m : List (κ × α)) : List Nat :=
  encodeU64 m.length ++ (m.map (serializePair ck cv)).flatten

/-- `deserialize(read_stream_t *, std::map<K, V> *)`: clear, read the
count, then `sz` times decode a fresh pair and insert it with the
running position hint (starting at `begin()`). -/
def deserializeMap {κ α : Type} [LinearOrder κ] (ck : Codec κ) (cv : Codec α)
    (s : RStream) (_m : List (κ × α)) : Int × List (κ × α) × RStream :=
  let r := deserializeU64 s
  if r.1 ≠ 0 then (r.1, [], r.2.2)
  else
    ordDesLoop (fun t => deserializePair ck cv t (ck.dflt, cv.dflt))
      Prod.fst r.2.1 r.2.2 0 []

/-- Modelled from the spec: the map decoder with plain (hint-free)
insertion, the reference point of spec section 4.4. -/
def deserializeMapNoHint {κ α : Type} [LinearOrder κ] (ck : Codec κ)
    (cv : Codec α) (s : RStream) (_m : List (κ × α)) :
    Int × List (κ × α) × RStream :=
  let r := deserializeU64 s
  if r.1 ≠ 0 then (r.1, [], r.2.2)
  else
    ordDesLoopNoHint (fun t => deserializePair ck cv t (ck.dflt, cv.dflt))
      Prod.fst r.2.1 r.2.2 []

/-- The map codec packaged as an element codec; a `std::map` value is a
key-sorted duplicate-free sequence of entries. -/
def mapCodec {κ α : Type} [LinearOrder κ] (ck : Codec κ) (cv : Codec α) :
    Codec (List (κ × α)) where
  dflt := []
  valid := fun m => m.length < 2 ^ 64 ∧
    List.Pairwise (fun p q => p.1 < q.1) m ∧
    ∀ p ∈ m, ck.valid p.1 ∧ cv.valid p.2
  ser := serializeMap ck cv
  des := deserializeMap ck cv

/-! ### Set codec (`stl_types.hpp` lines 66-96) -/

/-- `operator<<(write_message_t &, const std::set<T> &)`: unsigned
64-bit count, then each element in ascending order. -/
def serializeSet {α : Type} [LinearOrder α] (c : Codec α) (v : List α) :
    List Nat :=
  encodeU64 v.length ++ (v.map c.ser).flatten

/-- `deserialize(read_stream_t *, std::set<T> *)`: clear, read the
count, then `sz` times decode a fresh value and insert it with the
running position hint. -/
def deserializeSet {α : Type} [LinearOrder α] (c : Codec α) (s : RStream)
    (_out : List α) : Int × List α × RStream :=
  let r := deserializeU64 s
  if r.1 ≠ 0 then (r.1, [], r.2.2)
  else ordDesLoop (fun t => c.des t c.dflt) id r.2.1 r.2.2 0 []

/-- Modelled from the spec: the set decoder with plain (hint-free)
insertion. -/
def deserializeSetNoHint {α : Type} [LinearOrder α] (c : Codec α)
    (s : RStream) (_out : List α) : Int × List α × RStream :=
  let r := deserializeU64 s
  if r.1 ≠ 0 then (r.1, [], r.2.2)
  else ordDesLoopNoHint (fun t => c.des t c.dflt) id r.2.1 r.2.2 []

/-- The set codec packaged as an element codec; a `std::set` value is a
sorted duplicate-free sequence. -/
def setCodec {α : Type} [LinearOrder α] (c : Codec α) : Codec (List α) where
  dflt := []
  valid := fun v => v.length < 2 ^ 64 ∧ List.Pairwise (· < ·) v ∧
    ∀ x ∈ v, c.valid x
  ser := serializeSet c
  des := deserializeSet c

/-- The run of nested element decodes a counted composite decoder
performs: `FirstFail dec n s res s'` states that within a budget of `n`
element decodes starting from stream `s`, some prefix of decodes
succeeds, the next one returns the non-zero code `res`, and `s'` is the
stream exactly as that failing decode left it. -/
inductive FirstFail {γ : Type} (dec : RStream → Int × γ × RStream) :
    Nat → RStream → Int → RStream → Prop where
  | here {n : Nat} {s : RStream} {res : Int} :
      (dec s).1 = res → res ≠ 0 → FirstFail dec (n + 1) s res (dec s).2.2
  | later {n : Nat} {s : RStream} {res : Int} {s' : RStream} :
      (dec s).1 = 0 → FirstFail dec n (dec s).2.2 res s' →
      FirstFail dec (n + 1) s res s'

/-! ### Basic facts about the byte source and the scalar codec -/

lemma byteStream_cons (b : Nat) (bs : List Nat) :
    byteStream (b :: bs) = StreamItem.byte b :: byteStream bs := rfl

lemma byteStream_append (a b : List Nat) :
    byteStream (a ++ b) = byteStream a ++ byteStream b := List.map_append _ _ _

lemma natToLE_length (k n : Nat) : (natToLE k n).length = k := by
  induction k generalizing n with
  | zero => rfl
  | succ k ih => simp [natToLE, ih]

lemma leToNat_natToLE (k n : Nat) : leToNat (natToLE k n) = n % 256 ^ k := by
  induction k generalizing n with
  | zero => simp [natToLE, leToNat, Nat.mod_one]
  | succ k ih =>
      rw [natToLE, leToNat, ih, pow_succ', Nat.mod_mul]
      omega

lemma forceRead_byteStream (bs : List Nat) (rest : RStream) :
    forceRead bs.length (byteStream bs ++ rest) = (some bs, rest) := by
  induction bs with
  | nil => rfl
  | cons b l ih =>
      simp only [byteStream] at ih ⊢
      simp [forceRead, List.length_cons, ih]

lemma deserializeU64_enc (n : Nat) (hn : n < 2 ^ 64) (rest : RStream) :
    deserializeU64 (byteStream (encodeU64 n) ++ rest) = (0, n, rest) := by
  have h8 : (8 : Nat) = (encodeU64 n).length := (natToLE_length 8 n).symm
  unfold deserializeU64
  rw [h8, forceRead_byteStream]
  have hlen : (encodeU64 n).length = 8 := natToLE_length 8 n
  simp only [hlen]
  have hv : leToNat (encodeU64 n) = n := by
    rw [encodeU64, leToNat_natToLE]
    have h2 : (256 : Nat) ^ 8 = 2 ^ 64 := by norm_num
    rw [h2, Nat.mod_eq_of_lt hn]
  simp [hv]

lemma deserializeI64_enc (n : Nat) (hn : n < 2 ^ 63) (rest : RStream) :
    deserializeI64 (byteStream (encodeI64 (n : Int)) ++ rest) =
      (0, (n : Int), rest) := by
  have henc : encodeI64 (n : Int) = encodeU64 n := by
    rw [encodeI64, encodeU64]
    have h1 : ((n : Int) % 2 ^ 64) = (n : Int) := by
      refine Int.emod_eq_of_lt (by positivity) ?_
      have : n < 2 ^ 64 := lt_of_lt_of_le hn (by norm_num)
      exact_mod_cast this
    rw [h1]
    simp
  rw [henc]
  have h8 : (8 : Nat) = (encodeU64 n).length := (natToLE_length 8 n).symm
  unfold deserializeI64
  rw [h8, forceRead_byteStream]
  have hlen : (encodeU64 n).length = 8 := natToLE_length 8 n
  simp only [hlen]
  have hv : leToNat (encodeU64 n) = n := by
    rw [encodeU64, leToNat_natToLE]
    have h2 : (256 : Nat) ^ 8 = 2 ^ 64 := by norm_num
    rw [h2, Nat.mod_eq_of_lt (lt_of_lt_of_le hn (by norm_num))]
  simp [hv, i64ofNat, hn]
  omega

lemma u64_roundTrip : RoundTrip u64Codec := by
  intro n hn rest
  simpa [u64Codec] using deserializeU64_enc n hn rest

/-- Behaviour of the string decoder once the length field has decoded
successfully to a non-negative value: the result depends only on the
payload read. -/
lemma deserializeString_step (s : RStream) (out : List Nat) (sz : Int)
    (s1 : RStream) (h : deserializeI64 s = (0, sz, s1)) (hsz : 0 ≤ sz) :
    deserializeString s out =
      match (forceRead sz.toNat s1).1 with
      | none => (-1, [], (forceRead sz.toNat s1).2)
      | some bs =>
          if bs.length < sz.toNat then (-2, [], (forceRead sz.toNat s1).2)
          else (0, bs, (forceRead sz.toNat s1).2) := by
  unfold deserializeString
  rw [h]
  have h0 : ¬ (sz < 0) := not_lt.mpr hsz
  simp only [ne_eq, not_true_eq_false, if_false, ite_false, h0]

lemma string_roundTrip : RoundTrip stringCodec := by
  intro v hv rest
  simp only [stringCodec] at hv ⊢
  rw [serializeString, byteStream_append, List.append_assoc]
  rw [deserializeString_step _ _ (v.length : Int) (byteStream v ++ rest)
    (deserializeI64_enc v.length hv (byteStream v ++ rest)) (by positivity)]
  have hlen : ((v.length : Int)).toNat = v.length := by simp
  rw [hlen, forceRead_byteStream v rest]
  simp

/-! ### Ordered insertion: the position hint is semantically inert -/

section OrderedLemmas

variable {γ κ : Type} [LinearOrder κ] (key : γ → κ)

lemma mem_sortedInsertBy (a x : γ) (m : List γ)
    (h : x ∈ sortedInsertBy key a m) : x = a ∨ x ∈ m := by
  induction m with
  | nil =>
      rw [sortedInsertBy] at h
      exact Or.inl (List.mem_singleton.mp h)
  | cons b l ih =>
      rw [sortedInsertBy] at h
      split_ifs at h with h1 h2
      · exact (List.mem_cons.mp h).imp id id
      · rcases List.mem_cons.mp h with rfl | h'
        · exact Or.inr (by simp)
        · rcases ih h' with rfl | h''
          · exact Or.inl rfl
          · exact Or.inr (List.mem_cons_of_mem b h'')
      · exact Or.inr h

lemma pairwise_sortedInsertBy (a : γ) (m : List γ)
    (hm : m.Pairwise (fun x y => key x < key y)) :
    (sortedInsertBy key a m).Pairwise (fun x y => key x < key y) := by
  induction m with
  | nil => simp [sortedInsertBy]
  | cons b l ih =>
      rw [List.pairwise_cons] at hm
      obtain ⟨hb, hl⟩ := hm
      rw [sortedInsertBy]
      split_ifs with h1 h2
      · refine List.pairwise_cons.mpr ⟨?_, List.pairwise_cons.mpr ⟨hb, hl⟩⟩
        intro x hx
        rcases List.mem_cons.mp hx with rfl | hx
        · exact h1
        · exact lt_trans h1 (hb x hx)
      · refine List.pairwise_cons.mpr ⟨?_, ih hl⟩
        intro x hx
        rcases mem_sortedInsertBy key a x l hx with rfl | hx
        · exact h2
        · exact hb x hx
      · exact List.pairwise_cons.mpr ⟨hb, hl⟩

lemma sortedInsertBy_of_forall_lt (a : γ) (m : List γ)
    (h : ∀ x ∈ m, key x < key a) : sortedInsertBy key a m = m ++ [a] := by
  induction m with
  | nil => rfl
  | cons b l ih =>
      have hb := h b (List.mem_cons_self b l)
      rw [sortedInsertBy, if_neg (lt_asymm hb), if_pos hb,
        ih (fun x hx => h x (List.mem_cons_of_mem b hx))]
      rfl

lemma splice_aux (a : γ) : ∀ (m : List γ) (i : Nat),
    m.Pairwise (fun x y => key x < key y) → i ≤ m.length →
    (∀ j c, i = j + 1 → m[j]? = some c → key c < key a) →
    (∀ c, m[i]? = some c → key a < key c) →
    m.take i ++ a :: m.drop i = sortedInsertBy key a m := by
  intro m
  induction m with
  | nil =>
      intro i _ _ _ _
      simp [sortedInsertBy]
  | cons b l ih =>
      intro i hm hlen hpred hsucc
      rw [List.pairwise_cons] at hm
      obtain ⟨hb, hl⟩ := hm
      cases i with
      | zero =>
          have ha : key a < key b := hsucc b (by simp)
          rw [sortedInsertBy, if_pos ha]
          simp
      | succ j =>
          have hba : key b < key a := by
            cases j with
            | zero => exact hpred 0 b rfl (by simp)
            | succ j' =>
                have hj' : j' < l.length := by
                  simpa using Nat.lt_of_succ_le (Nat.le_of_succ_le_succ hlen)
                have hc := hpred (j' + 1) (l[j']) rfl
                  (by simp [List.getElem?_eq_getElem hj'])
                exact lt_trans (hb _ (List.getElem_mem hj')) hc
          rw [sortedInsertBy, if_neg (lt_asymm hba), if_pos hba]
          rw [List.take_succ_cons, List.drop_succ_cons, List.cons_append]
          congr 1
          refine ih j hl (Nat.le_of_succ_le_succ hlen) ?_ ?_
          · intro j' c hj hj'
            subst hj
            exact hpred (j' + 1) c rfl (by simpa using hj')
          · intro c hc
            exact hsucc c (by simpa using hc)

lemma hintedInsertBy_snd (a : γ) (m : List γ) (i : Nat)
    (hm : m.Pairwise (fun x y => key x < key y)) :
    (hintedInsertBy key m i a).2 = sortedInsertBy key a m := by
  rw [hintedInsertBy]
  by_cases h : hintOk key m i a = true
  · rw [if_pos h]
    rw [hintOk.eq_def, Bool.and_eq_true, Bool.and_eq_true] at h
    obtain ⟨⟨h1, h2⟩, h3⟩ := h
    refine splice_aux key a m i hm (of_decide_eq_true h1) ?_ ?_
    · intro j c hi hj
      subst hi
      simp only [hj, decide_eq_true_eq] at h2
      exact h2
    · intro c hc
      simp only [hc, decide_eq_true_eq] at h3
      exact h3
  · rw [if_neg h]

lemma ordDesLoop_eq_noHint (dec : RStream → Int × γ × RStream) :
    ∀ (n : Nat) (s : RStream) (pos : Nat) (m : List γ),
      m.Pairwise (fun x y => key x < key y) →
      ordDesLoop dec key n s pos m = ordDesLoopNoHint dec key n s m := by
  intro n
  induction n with
  | zero => intro s pos m _; rfl
  | succ n ih =>
      intro s pos m hm
      simp only [ordDesLoop, ordDesLoopNoHint]
      split_ifs with h
      · rfl
      · rw [hintedInsertBy_snd key _ m pos hm]
        exact ih _ _ _ (pairwise_sortedInsertBy key _ m hm)

end OrderedLemmas

/-! ### Element-loop lemmas for the list decoder -/

section ElementLoops

variable {α : Type} (c : Codec α)

lemma listDesLoop_acc : ∀ (n : Nat) (s : RStream) (v : List α),
    listDesLoop c n s v =
      ((listDesLoop c n s []).1, v ++ (listDesLoop c n s []).2.1,
       (listDesLoop c n s []).2.2) := by
  intro n
  induction n with
  | zero => intro s v; simp [listDesLoop]
  | succ n ih =>
      intro s v
      simp only [listDesLoop]
      by_cases h : (c.des s c.dflt).1 = 0
      · simp only [h, ne_eq, not_true_eq_false, if_false, ite_false,
          List.nil_append]
        rw [ih _ (v ++ [(c.des s c.dflt).2.1]), ih _ [(c.des s c.dflt).2.1]]
        simp [List.append_assoc]
      · simp [h]

lemma listDesLoop_serialized (hc : RoundTrip c) :
    ∀ (v : List α), (∀ x ∈ v, c.valid x) → ∀ (rest : RStream) (w : List α),
      listDesLoop c v.length (byteStream (v.map c.ser).flatten ++ rest) w
        = (0, w ++ v, rest) := by
  intro v
  induction v with
  | nil => intro _ rest w; simp [listDesLoop, byteStream]
  | cons a l ih =>
      intro hv rest w
      rw [List.length_cons, List.map_cons, List.flatten_cons,
        byteStream_append, List.append_assoc]
      simp only [listDesLoop]
      rw [hc a (hv a (by simp)) (byteStream (l.map c.ser).flatten ++ rest)]
      simp only [ne_eq, not_true_eq_false, if_false, ite_false]
      rw [ih (fun x hx => hv x (by simp [hx])) rest (w ++ [a])]
      simp

lemma list_roundTrip_of (hc : RoundTrip c) : RoundTrip (listCodec c) := by
  intro v hv rest
  simp only [listCodec] at hv ⊢
  obtain ⟨hlen, hval⟩ := hv
  rw [serializeList, byteStream_append, List.append_assoc]
  unfold deserializeList
  rw [deserializeU64_enc v.length hlen]
  simp only [ne_eq, not_true_eq_false, if_false, ite_false]
  rw [listDesLoop_serialized c hc v hval rest []]
  simp

lemma listDesLoop_firstFail : ∀ (n : Nat) (s : RStream) (v : List α)
    (res : Int) (v' : List α) (s' : RStream),
    listDesLoop c n s v = (res, v', s') → res ≠ 0 →
    FirstFail (fun t => c.des t c.dflt) n s res s' := by
  intro n
  induction n with
  | zero =>
      intro s v res v' s' h hres
      simp only [listDesLoop, Prod.mk.injEq] at h
      exact absurd h.1.symm hres
  | succ n ih =>
      intro s v res v' s' h hres
      simp only [listDesLoop] at h
      by_cases h0 : (c.des s c.dflt).1 = 0
      · simp only [h0, ne_eq, not_true_eq_false, if_false, ite_false] at h
        exact FirstFail.later h0 (ih _ _ _ _ _ h hres)
      · simp [h0, Prod.mk.injEq] at h
        obtain ⟨h1, h2, h3⟩ := h
        subst h1
        subst h3
        exact FirstFail.here rfl hres

end ElementLoops

/-! ### The vector decoder's self-recursion: consumption bound,
possible result codes, and the one-step failure shape -/

lemma forceRead_some_length : ∀ (n : Nat) (t : RStream) (bs : List Nat),
    (forceRead n t).1 = some bs →
    (forceRead n t).2.length + bs.length ≤ t.length := by
  intro n
  induction n with
  | zero =>
      intro t bs h
      simp only [forceRead] at h ⊢
      obtain rfl : ([] : List Nat) = bs := Option.some.inj h
      simp
  | succ n ih =>
      intro t bs h
      cases t with
      | nil =>
          simp only [forceRead] at h ⊢
          obtain rfl : ([] : List Nat) = bs := Option.some.inj h
          simp
      | cons it t0 =>
          cases it with
          | err => simp [forceRead] at h
          | byte b =>
              simp only [forceRead] at h ⊢
              cases hf0 : forceRead n t0 with
              | mk o s1 =>
                  rw [hf0] at h
                  cases o with
                  | none =>
                      exact Option.noConfusion
                        (show (none : Option (List Nat)) = some bs from h)
                  | some bs0 =>
                      obtain rfl : b :: bs0 = bs :=
                        Option.some.inj (show some (b :: bs0) = some bs from h)
                      have hle : s1.length + bs0.length ≤ t0.length := by
                        have h2 := ih t0 bs0 (by rw [hf0])
                        rw [hf0] at h2
                        exact h2
                      show s1.length + (b :: bs0).length ≤
                        (StreamItem.byte b :: t0).length
                      simp only [List.length_cons]
                      omega

lemma deserializeU64_stream_eq (s : RStream) :
    (deserializeU64 s).2.2 = (forceRead 8 s).2 := by
  cases hf : (forceRead 8 s).1 with
  | none => simp [deserializeU64, hf]
  | some bs => by_cases hl : bs.length < 8 <;> simp [deserializeU64, hf, hl]

lemma deserializeU64_code (s : RStream) :
    (deserializeU64 s).1 = 0 ∨ (deserializeU64 s).1 = -1 ∨
      (deserializeU64 s).1 = -2 := by
  cases hf : (forceRead 8 s).1 with
  | none => simp [deserializeU64, hf]
  | some bs => by_cases hl : bs.length < 8 <;> simp [deserializeU64, hf, hl]

lemma deserializeU64_length_lt (s : RStream)
    (h : (deserializeU64 s).1 = 0) :
    (deserializeU64 s).2.2.length < s.length := by
  cases hf : (forceRead 8 s).1 with
  | none =>
      have hx : (deserializeU64 s).1 = -1 := by simp [deserializeU64, hf]
      rw [h] at hx
      exact absurd hx (by decide)
  | some bs =>
      by_cases hl : bs.length < 8
      · have hx : (deserializeU64 s).1 = -2 := by
          simp [deserializeU64, hf, hl]
        rw [h] at hx
        exact absurd hx (by decide)
      · have hle := forceRead_some_length 8 s bs hf
        rw [deserializeU64_stream_eq]
        omega

lemma deserializeVector_ok_code {α : Type} (c : Codec α) :
    ∀ (s : RStream) (d : List α) (r : Int × List α × RStream),
      deserializeVector c s d = VecResult.ok r →
      r.1 = 0 ∨ r.1 = -1 ∨ r.1 = -2 := by
  suffices hN : ∀ (n : Nat) (s : RStream), s.length ≤ n →
      ∀ (d : List α) (r : Int × List α × RStream),
        deserializeVector c s d = VecResult.ok r →
        r.1 = 0 ∨ r.1 = -1 ∨ r.1 = -2 by
    intro s d r h
    exact hN s.length s le_rfl d r h
  intro n
  induction n with
  | zero =>
      intro s hle d r h
      unfold deserializeVector at h
      by_cases h1 : (deserializeU64 s).1 ≠ 0
      · rw [dif_pos h1] at h
        obtain rfl : ((deserializeU64 s).1, ([] : List α),
            (deserializeU64 s).2.2) = r := VecResult.ok.inj h
        exact deserializeU64_code s
      · exfalso
        have hlen := deserializeU64_length_lt s (not_not.mp h1)
        omega
  | succ n ih =>
      intro s hle d r h
      unfold deserializeVector at h
      by_cases h1 : (deserializeU64 s).1 ≠ 0
      · rw [dif_pos h1] at h
        obtain rfl : ((deserializeU64 s).1, ([] : List α),
            (deserializeU64 s).2.2) = r := VecResult.ok.inj h
        exact deserializeU64_code s
      · rw [dif_neg h1] at h
        by_cases h2 : (deserializeU64 s).2.1 = 0
        · rw [dif_pos h2] at h
          obtain rfl : ((0 : Int), ([] : List α),
              (deserializeU64 s).2.2) = r := VecResult.ok.inj h
          exact Or.inl rfl
        · rw [dif_neg h2] at h
          have hlen := deserializeU64_length_lt s (not_not.mp h1)
          cases hrec : deserializeVector c (deserializeU64 s).2.2
              (List.replicate (deserializeU64 s).2.1 c.dflt) with
          | ub => rw [hrec] at h; exact absurd h (by simp)
          | ok r2 =>
              rw [hrec] at h
              replace h : (if r2.1 ≠ 0 then VecResult.ok r2
                  else if (deserializeU64 s).2.1 = 1 then VecResult.ok r2
                  else VecResult.ub) = VecResult.ok r := h
              have hr2 := ih (deserializeU64 s).2.2 (by omega) _ _ hrec
              by_cases h3 : r2.1 ≠ 0
              · rw [if_pos h3] at h
                obtain rfl : r2 = r := VecResult.ok.inj h
                exact hr2
              · rw [if_neg h3] at h
                by_cases h4 : (deserializeU64 s).2.1 = 1
                · rw [if_pos h4] at h
                  obtain rfl : r2 = r := VecResult.ok.inj h
                  exact hr2
                · rw [if_neg h4] at h
                  exact absurd h (by simp)

lemma deserializeVector_failure_step {α : Type} (c : Codec α)
    (s : RStream) (d : List α) (res : Int) (v' : List α) (s' : RStream)
    (h : deserializeVector c s d = VecResult.ok (res, v', s'))
    (hres : res ≠ 0) :
    ((deserializeU64 s).1 = res ∧ s' = (deserializeU64 s).2.2) ∨
    ((deserializeU64 s).1 = 0 ∧ (deserializeU64 s).2.1 ≠ 0 ∧
      deserializeVector c (deserializeU64 s).2.2
          (List.replicate (deserializeU64 s).2.1 c.dflt)
        = VecResult.ok (res, v', s')) := by
  unfold deserializeVector at h
  by_cases h1 : (deserializeU64 s).1 ≠ 0
  · rw [dif_pos h1] at h
    have := VecResult.ok.inj h
    simp only [Prod.mk.injEq] at this
    exact Or.inl ⟨this.1, this.2.2.symm⟩
  · rw [dif_neg h1] at h
    by_cases h2 : (deserializeU64 s).2.1 = 0
    · rw [dif_pos h2] at h
      have := VecResult.ok.inj h
      simp only [Prod.mk.injEq] at this
      exact absurd this.1.symm hres
    · rw [dif_neg h2] at h
      cases hrec : deserializeVector c (deserializeU64 s).2.2
          (List.replicate (deserializeU64 s).2.1 c.dflt) with
      | ub => rw [hrec] at h; exact absurd h (by simp)
      | ok r2 =>
          rw [hrec] at h
          replace h : (if r2.1 ≠ 0 then VecResult.ok r2
              else if (deserializeU64 s).2.1 = 1 then VecResult.ok r2
              else VecResult.ub) = VecResult.ok (res, v', s') := h
          by_cases h3 : r2.1 ≠ 0
          · rw [if_pos h3] at h
            obtain rfl : r2 = (res, v', s') := VecResult.ok.inj h
            exact Or.inr ⟨not_not.mp h1, h2, rfl⟩
          · rw [if_neg h3] at h
            by_cases h4 : (deserializeU64 s).2.1 = 1
            · rw [if_pos h4] at h
              obtain rfl : r2 = (res, v', s') := VecResult.ok.inj h
              exact absurd (not_not.mp h3) hres
            · rw [if_neg h4] at h
              exact absurd h (by simp)

/-! ### Round trips of the composite codecs -/

lemma deserializePair_serialized {α β : Type} (ca : Codec α) (cb : Codec β)
    (ha : RoundTrip ca) (hb : RoundTrip cb) (p : α × β)
    (h1 : ca.valid p.1) (h2 : cb.valid p.2) (rest : RStream) :
    deserializePair ca cb (byteStream (serializePair ca cb p) ++ rest)
      (ca.dflt, cb.dflt) = (0, p, rest) := by
  rw [serializePair, byteStream_append, List.append_assoc]
  simp only [deserializePair]
  rw [ha p.1 h1]
  simp only [ne_eq, not_true_eq_false, if_false, ite_false]
  rw [hb p.2 h2 rest]

lemma pair_roundTrip_of {α β : Type} (ca : Codec α) (cb : Codec β)
    (ha : RoundTrip ca) (hb : RoundTrip cb) : RoundTrip (pairCodec ca cb) := by
  intro p hp rest
  simp only [pairCodec] at hp ⊢
  exact deserializePair_serialized ca cb ha hb p hp.1 hp.2 rest

section OrdSerialized

variable {γ κ : Type} [LinearOrder κ] (key : γ → κ)

lemma ordDesLoopNoHint_serialized (dec : RStream → Int × γ × RStream)
    (serOf : γ → List Nat) :
    ∀ (v : List γ),
      (∀ x ∈ v, ∀ rest : RStream,
        dec (byteStream (serOf x) ++ rest) = (0, x, rest)) →
      ∀ (rest : RStream) (m : List γ),
      ordDesLoopNoHint dec key v.length
          (byteStream (v.map serOf).flatten ++ rest) m
        = (0, v.foldl (fun acc x => sortedInsertBy key x acc) m, rest) := by
  intro v
  induction v with
  | nil => intro _ rest m; simp [ordDesLoopNoHint, byteStream]
  | cons a l ih =>
      intro hdec rest m
      rw [List.length_cons, List.map_cons, List.flatten_cons,
        byteStream_append, List.append_assoc]
      simp only [ordDesLoopNoHint]
      rw [hdec a (by simp) (byteStream (l.map serOf).flatten ++ rest)]
      simp only [ne_eq, not_true_eq_false, if_false, ite_false]
      rw [ih (fun x hx => hdec x (by simp [hx])) rest (sortedInsertBy key a m)]
      simp [List.foldl_cons]

lemma foldl_sortedInsertBy_append :
    ∀ (v w : List γ), (∀ x ∈ w, ∀ y ∈ v, key x < key y) →
      v.Pairwise (fun x y => key x < key y) →
      v.foldl (fun acc x => sortedInsertBy key x acc) w = w ++ v := by
  intro v
  induction v with
  | nil => intro w _ _; simp
  | cons a l ih =>
      intro w hw hv
      rw [List.pairwise_cons] at hv
      obtain ⟨ha, hl⟩ := hv
      have hcond : ∀ x ∈ w ++ [a], ∀ y ∈ l, key x < key y := by
        intro x hx y hy
        rcases List.mem_append.mp hx with hx | hx
        · exact hw x hx y (List.mem_cons_of_mem a hy)
        · rw [List.mem_singleton.mp hx]
          exact ha y hy
      rw [List.foldl_cons, sortedInsertBy_of_forall_lt key a w
        (fun x hx => hw x hx a (List.mem_cons_self a l)), ih (w ++ [a]) hcond hl]
      simp

end OrdSerialized

lemma map_roundTrip_of {κ α : Type} [LinearOrder κ] (ck : Codec κ)
    (cv : Codec α) (hk : RoundTrip ck) (hv : RoundTrip cv) :
    RoundTrip (mapCodec ck cv) := by
  intro m hm rest
  simp only [mapCodec] at hm ⊢
  obtain ⟨hlen, hsort, hval⟩ := hm
  rw [serializeMap, byteStream_append, List.append_assoc]
  unfold deserializeMap
  rw [deserializeU64_enc m.length hlen]
  simp only [ne_eq, not_true_eq_false, if_false, ite_false]
  rw [ordDesLoop_eq_noHint Prod.fst _ _ _ _ _ List.Pairwise.nil]
  rw [ordDesLoopNoHint_serialized Prod.fst _ (serializePair ck cv) m
    (fun p hp rest2 => deserializePair_serialized ck cv hk hv p
      (hval p hp).1 (hval p hp).2 rest2) rest []]
  rw [foldl_sortedInsertBy_append Prod.fst m [] (by simp) hsort]
  simp

lemma set_roundTrip_of {α : Type} [LinearOrder α] (c : Codec α)
    (hc : RoundTrip c) : RoundTrip (setCodec c) := by
  intro v hv rest
  simp only [setCodec] at hv ⊢
  obtain ⟨hlen, hsort, hval⟩ := hv
  rw [serializeSet, byteStream_append, List.append_assoc]
  unfold deserializeSet
  rw [deserializeU64_enc v.length hlen]
  simp only [ne_eq, not_true_eq_false, if_false, ite_false]
  rw [ordDesLoop_eq_noHint id _ _ _ _ _ List.Pairwise.nil]
  rw [ordDesLoopNoHint_serialized id _ c.ser v
    (fun x hx rest2 => hc x (hval x hx) rest2) rest []]
  rw [foldl_sortedInsertBy_append id v [] (by simp) (by simpa using hsort)]
  simp

/-! ### First-occurrence semantics of repeated insertion -/

section LookupLemmas

variable {γ κ : Type} [LinearOrder κ] (key : γ → κ)

lemma lookupKey_sortedInsertBy (a : γ) (m : List γ) (k : κ)
    (hm : m.Pairwise (fun x y => key x < key y)) :
    lookupKey key (sortedInsertBy key a m) k =
      match lookupKey key m k with
      | some x => some x
      | none => if key a = k then some a else none := by
  induction m with
  | nil =>
      by_cases hak : key a = k <;>
        simp [sortedInsertBy, lookupKey, List.find?, hak]
  | cons b l ih =>
      rw [List.pairwise_cons] at hm
      obtain ⟨hb, hl⟩ := hm
      rw [sortedInsertBy]
      rcases lt_trichotomy (key a) (key b) with h1 | heq | h1
      · rw [if_pos h1]
        by_cases hak : key a = k
        · have hnone : lookupKey key (b :: l) k = none := by
            rw [lookupKey, List.find?_eq_none]
            intro x hx
            have hlt : key a < key x := by
              rcases List.mem_cons.mp hx with rfl | hx
              · exact h1
              · exact lt_trans h1 (hb x hx)
            simp only [decide_eq_true_eq]
            rw [← hak]
            exact fun he => absurd he.symm (ne_of_lt hlt)
          rw [hnone, lookupKey, List.find?_cons_of_pos _ (by simp [hak])]
          simp [hak]
        · have hfa : lookupKey key (a :: b :: l) k = lookupKey key (b :: l) k := by
            rw [lookupKey, lookupKey, List.find?_cons_of_neg _ (by simp [hak])]
          rw [hfa]
          cases hlk : lookupKey key (b :: l) k with
          | some x => rfl
          | none => simp [hak]
      · rw [if_neg (by rw [heq]; exact lt_irrefl _),
          if_neg (by rw [heq]; exact lt_irrefl _)]
        by_cases hbk : key b = k
        · have e2 : lookupKey key (b :: l) k = some b := by
            rw [lookupKey, List.find?_cons_of_pos _ (by simp [hbk])]
          rw [e2]
        · have e2 : lookupKey key (b :: l) k = lookupKey key l k := by
            rw [lookupKey, lookupKey, List.find?_cons_of_neg _ (by simp [hbk])]
          rw [e2]
          cases hlk : lookupKey key l k with
          | some x => rfl
          | none => simp [heq, hbk]
      · rw [if_neg (lt_asymm h1), if_pos h1]
        by_cases hbk : key b = k
        · have e1 : lookupKey key (b :: sortedInsertBy key a l) k = some b := by
            rw [lookupKey, List.find?_cons_of_pos _ (by simp [hbk])]
          have e2 : lookupKey key (b :: l) k = some b := by
            rw [lookupKey, List.find?_cons_of_pos _ (by simp [hbk])]
          rw [e1, e2]
        · have e1 : lookupKey key (b :: sortedInsertBy key a l) k
              = lookupKey key (sortedInsertBy key a l) k := by
            rw [lookupKey, lookupKey, List.find?_cons_of_neg _ (by simp [hbk])]
          have e2 : lookupKey key (b :: l) k = lookupKey key l k := by
            rw [lookupKey, lookupKey, List.find?_cons_of_neg _ (by simp [hbk])]
          rw [e1, e2, ih hl]

lemma lookupKey_foldl_insert :
    ∀ (v m : List γ) (k : κ),
      m.Pairwise (fun x y => key x < key y) →
      lookupKey key (v.foldl (fun acc x => sortedInsertBy key x acc) m) k =
        match lookupKey key m k with
        | some x => some x
        | none => v.find? (fun x => decide (key x = k)) := by
  intro v
  induction v with
  | nil =>
      intro m k hm
      cases hl : lookupKey key m k <;> simp [hl]
  | cons a l ih =>
      intro m k hm
      rw [List.foldl_cons, ih _ k (pairwise_sortedInsertBy key a m hm),
        lookupKey_sortedInsertBy key a m k hm]
      cases hl : lookupKey key m k with
      | some x => rfl
      | none =>
          by_cases hak : key a = k
          · rw [List.find?_cons_of_pos _ (by simp [hak])]
            simp [hak]
          · rw [List.find?_cons_of_neg _ (by simp [hak])]
            simp [hak]

end LookupLemmas

/-! ### Claim theorems -/

lemma ordDesLoop_firstFail {γ κ : Type} [LinearOrder κ] (key : γ → κ)
    (dec : RStream → Int × γ × RStream) :
    ∀ (n : Nat) (s : RStream) (pos : Nat) (m : List γ) (res : Int)
      (m' : List γ) (s' : RStream),
      ordDesLoop dec key n s pos m = (res, m', s') → res ≠ 0 →
      FirstFail dec n s res s' := by
  intro n
  induction n with
  | zero =>
      intro s pos m res m' s' h hres
      simp only [ordDesLoop, Prod.mk.injEq] at h
      exact absurd h.1.symm hres
  | succ n ih =>
      intro s pos m res m' s' h hres
      simp only [ordDesLoop] at h
      by_cases h0 : (dec s).1 = 0
      · simp only [h0, ne_eq, not_true_eq_false, if_false, ite_false] at h
        exact FirstFail.later h0 (ih _ _ _ _ _ _ h hres)
      · simp [h0, Prod.mk.injEq] at h
        obtain ⟨h1, h2, h3⟩ := h
        subst h1
        subst h3
        exact FirstFail.here rfl hres

/-- C6: if decoding the first component of a pair fails (non-zero
result), pair deserialize returns that result immediately, leaves the
stream exactly where the first decode stopped and never decodes the
second component (whose destination value is untouched); otherwise it
returns the result of decoding the second component. -/
theorem pair_first_failure_short_circuits :
    (∀ {α β : Type} (ca : Codec α) (cb : Codec β) (s : RStream) (p : α × β)
       (res : Int) (a : α) (s1 : RStream),
       ca.des s p.1 = (res, a, s1) → res ≠ 0 →
       deserializePair ca cb s p = (res, (a, p.2), s1)) ∧
    (∀ {α β : Type} (ca : Codec α) (cb : Codec β) (s : RStream) (p : α × β)
       (a : α) (s1 : RStream),
       ca.des s p.1 = (0, a, s1) →
       deserializePair ca cb s p =
         ((cb.des s1 p.2).1, (a, (cb.des s1 p.2).2.1),
          (cb.des s1 p.2).2.2)) := by
  constructor
  · intro α β ca cb s p res a s1 h hres
    unfold deserializePair
    rw [h]
    simp [hres]
  · intro α β ca cb s p a s1 h
    unfold deserializePair
    rw [h]
    simp

/-- Witness for C6: decoding the first `uint64_t` of a pair from an
empty stream fails with the truncation code `-2`; pair deserialize
returns `-2` with the second component untouched. -/
theorem pair_first_failure_short_circuits_witness :
    deserializePair u64Codec u64Codec [] (0, 7) = (-2, (0, 7), []) :=
  pair_first_failure_short_circuits.1 u64Codec u64Codec [] (0, 7) (-2) 0 []
    (by decide) (by decide)

/-- C10: string deserialize is atomic on error: whenever it returns a
non-zero result, the destination (cleared at entry and assigned only on
the success path) is left equal to the empty string, for every input
stream and every initial destination. -/
theorem string_atomic_on_error : ∀ (s : RStream) (out : List Nat),
    (deserializeString s out).1 ≠ 0 → (deserializeString s out).2.1 = [] := by
  intro s out h
  unfold deserializeString at h ⊢
  by_cases h1 : (deserializeI64 s).1 = 0
  · simp only [h1, ne_eq, not_true_eq_false, if_false, ite_false] at h ⊢
    by_cases h2 : (deserializeI64 s).2.1 < 0
    · simp [h2]
    · simp only [h2, if_false, ite_false] at h ⊢
      cases hf : (forceRead (deserializeI64 s).2.1.toNat (deserializeI64 s).2.2).1 with
      | none => simp [hf]
      | some bs =>
          simp only [hf] at h ⊢
          by_cases h3 : bs.length < (deserializeI64 s).2.1.toNat
          · simp [h3]
          · simp [h3] at h
  · simp [h1]

/-- Witness for C10: decoding from an empty stream fails with `-2` and
leaves the destination empty. -/
theorem string_atomic_on_error_witness :
    (deserializeString [] [7]).1 ≠ 0 ∧ (deserializeString [] [7]).2.1 = [] :=
  ⟨by decide, string_atomic_on_error [] [7] (by decide)⟩

/-- C2: if the length field decodes as a negative value, string
deserialize returns the invalid-length code `-3`, leaves the destination
cleared, and consumes no bytes beyond the length field itself: the
remaining stream is exactly the stream the length decode left, so no
payload read is attempted. -/
theorem string_negative_length_rejected (s : RStream) (out : List Nat)
    (sz : Int) (s1 : RStream) (h : deserializeI64 s = (0, sz, s1))
    (hneg : sz < 0) : deserializeString s out = (-3, [], s1) := by
  unfold deserializeString
  rw [h]
  simp [hneg]

/-- Witness for C2: a stream of eight `0xff` bytes decodes as length
`-1` and is rejected with `-3`, consuming exactly the eight bytes. -/
theorem string_negative_length_rejected_witness :
    deserializeI64 (byteStream (List.replicate 8 255)) = (0, -1, []) ∧
    deserializeString (byteStream (List.replicate 8 255)) [] = (-3, [], []) :=
  ⟨by decide,
   string_negative_length_rejected _ [] (-1) [] (by decide) (by decide)⟩

/-- C5: once a non-negative length has been read, string deserialize
returns the hard-error code `-1` exactly when the source signals a hard
error during the payload read, and the truncation code `-2` exactly when
the source delivers fewer than the requested bytes without a hard error;
the two causes are never conflated. -/
theorem string_hard_error_vs_truncation (s : RStream) (out : List Nat)
    (sz : Int) (s1 : RStream) (h : deserializeI64 s = (0, sz, s1))
    (hsz : 0 ≤ sz) :
    ((deserializeString s out).1 = -1 ↔ (forceRead sz.toNat s1).1 = none) ∧
    ((deserializeString s out).1 = -2 ↔
      ∃ bs, (forceRead sz.toNat s1).1 = some bs ∧ bs.length < sz.toNat) := by
  rw [deserializeString_step s out sz s1 h hsz]
  cases hf : (forceRead sz.toNat s1).1 with
  | none => simp
  | some bs =>
      by_cases h3 : bs.length < sz.toNat
      · simp [h3]
        omega
      · simp [h3]
        omega

/-- Witness for C5: a length-2 prefix followed by one byte and a
hard-error signal yields `-1` (hard error), not `-2`. -/
theorem string_hard_error_vs_truncation_witness :
    (deserializeString (byteStream (encodeI64 2) ++
      [StreamItem.byte 104, StreamItem.err]) []).1 = -1 :=
  ((string_hard_error_vs_truncation _ [] 2 [StreamItem.byte 104, StreamItem.err]
    (by decide) (by decide)).1).mpr (by decide)

set_option maxRecDepth 8192 in
/-- C3 counterexample: the list decoder does not clear its destination.
Decoding a stream that declares zero elements into the destination
`[5]` succeeds but leaves the prior element `5` in place, so the
destination does not contain only elements decoded from the stream. -/
theorem list_decoder_keeps_prior_elements :
    deserializeList u64Codec (byteStream (encodeU64 0)) [5] = (0, [5], []) ∧
    (deserializeList u64Codec (byteStream (encodeU64 0)) [5]).2.1 ≠ [] := by
  constructor <;> decide

/-- C3 amended: the list decoder performs no clear: for every input
stream and destination, it appends the decoded elements after the
elements the destination already held, with the same result code and
remaining stream as for an empty destination.  (With the fresh
default-constructed — hence empty — destination of the decode contract,
the destination therefore holds exactly the decoded elements.) -/
theorem list_decoder_appends {α : Type} (c : Codec α) (s : RStream)
    (v : List α) :
    deserializeList c s v =
      ((deserializeList c s []).1,
       v ++ (deserializeList c s []).2.1,
       (deserializeList c s []).2.2) := by
  unfold deserializeList
  by_cases h : (deserializeU64 s).1 = 0
  · simp only [h, ne_eq, not_true_eq_false, if_false, ite_false]
    exact listDesLoop_acc c _ _ v
  · simp [h]

/-- C4 counterexample: decoders do not reject implausible declared
sizes before using them: a string stream declaring the absurd length
`2 ^ 62` with no payload at all is not rejected with the invalid-length
code; the decoder goes ahead, sizes its intermediate buffer from the
unvalidated length and attempts the `2 ^ 62`-byte read, failing only
with the truncation code `-2` of that read. -/
theorem implausible_size_not_rejected :
    deserializeString (byteStream (encodeI64 (2 ^ 62))) [] = (-2, [], []) ∧
    (-2 : Int) ≠ -3 := by
  constructor <;> decide

/-- C4 amended: the string decoder rejects a negative declared length
with the distinct code `-3` before any payload read; no implausible
(arbitrarily large) non-negative size is ever rejected: for any
non-negative decoded length the string decoder goes ahead and attempts
a payload read of exactly that many bytes, however large, and the
vector decoder has no size validation at all — a defined vector decode
never returns the invalid-length code `-3`. -/
theorem size_validation_amended :
    (∀ (s : RStream) (out : List Nat) (sz : Int) (s1 : RStream),
       deserializeI64 s = (0, sz, s1) → sz < 0 →
       deserializeString s out = (-3, [], s1)) ∧
    (∀ (s : RStream) (out : List Nat) (sz : Int) (s1 : RStream),
       deserializeI64 s = (0, sz, s1) → 0 ≤ sz →
       deserializeString s out =
         match (forceRead sz.toNat s1).1 with
         | none => (-1, [], (forceRead sz.toNat s1).2)
         | some bs =>
             if bs.length < sz.toNat then (-2, [], (forceRead sz.toNat s1).2)
             else (0, bs, (forceRead sz.toNat s1).2)) ∧
    (∀ {α : Type} (c : Codec α) (s : RStream) (d : List α)
       (r : Int × List α × RStream),
       deserializeVector c s d = VecResult.ok r → r.1 ≠ -3) := by
  refine ⟨?_, ?_, ?_⟩
  · intro s out sz s1 h hneg
    unfold deserializeString
    rw [h]
    simp [hneg]
  · intro s out sz s1 h hsz
    exact deserializeString_step s out sz s1 h hsz
  · intro α c s d r h
    rcases deserializeVector_ok_code c s d r h with h0 | h0 | h0 <;>
      rw [h0] <;> decide

/-- Witness for C4 (amended): a negative length is rejected with `-3`
before any read; the absurd length `2 ^ 62` is not rejected — the read
is attempted and fails with the truncation code `-2`; the code of a
concrete failing vector decode is `-2`, never `-3`. -/
theorem size_validation_amended_witness :
    deserializeString (byteStream (List.replicate 8 128)) [] = (-3, [], []) ∧
    deserializeString (byteStream (encodeI64 (2 ^ 62))) [] = (-2, [], []) ∧
    ((-2 : Int) ≠ -3) := by
  refine ⟨?_, ?_, ?_⟩
  · exact size_validation_amended.1 _ []
      (i64ofNat (leToNat (List.replicate 8 128))) [] (by decide) (by decide)
  · have h := size_validation_amended.2.1 (byteStream (encodeI64 (2 ^ 62)))
      [] (2 ^ 62) [] (by decide) (by decide)
    rw [h]
    decide
  · have hv : deserializeVector u64Codec [] ([] : List Nat)
        = VecResult.ok (-2, [], []) := by
      unfold deserializeVector
      rw [show deserializeU64 ([] : RStream) = (-2, 0, []) from by decide]
      norm_num
    exact size_validation_amended.2.2 u64Codec [] [] (-2, [], []) hv

/-- C8: decoding correctness does not depend on the input stream element
order or on the position hint: for every input stream (sorted or not)
and every destination, the map and set decoders of the source, which
insert each decoded element with the running position hint, return
exactly the same result as the reference decoders inserting the same
elements in the same order without a hint. -/
theorem hinted_decode_eq_plain_decode :
    (∀ {κ α : Type} [LinearOrder κ] (ck : Codec κ) (cv : Codec α)
       (s : RStream) (m : List (κ × α)),
       deserializeMap ck cv s m = deserializeMapNoHint ck cv s m) ∧
    (∀ {α : Type} [LinearOrder α] (c : Codec α) (s : RStream) (v : List α),
       deserializeSet c s v = deserializeSetNoHint c s v) := by
  constructor
  · intro κ α inst ck cv s m
    unfold deserializeMap deserializeMapNoHint
    by_cases h : (deserializeU64 s).1 = 0
    · simp only [h, ne_eq, not_true_eq_false, if_false, ite_false]
      exact ordDesLoop_eq_noHint Prod.fst _ _ _ _ _ List.Pairwise.nil
    · simp [h]
  · intro α inst c s v
    unfold deserializeSet deserializeSetNoHint
    by_cases h : (deserializeU64 s).1 = 0
    · simp only [h, ne_eq, not_true_eq_false, if_false, ite_false]
      exact ordDesLoop_eq_noHint id _ _ _ _ _ List.Pairwise.nil
    · simp [h]

/-- Witness for C8 at a concrete out-of-order stream (count 2, entries
with keys 9 then 3): hinted and plain decode agree. -/
theorem hinted_decode_eq_plain_decode_witness :
    deserializeMap u64Codec u64Codec
        (byteStream (encodeU64 2 ++ encodeU64 9 ++ encodeU64 1
          ++ encodeU64 3 ++ encodeU64 4)) [] =
      deserializeMapNoHint u64Codec u64Codec
        (byteStream (encodeU64 2 ++ encodeU64 9 ++ encodeU64 1
          ++ encodeU64 3 ++ encodeU64 4)) [] :=
  hinted_decode_eq_plain_decode.1 u64Codec u64Codec _ []

/-- C1 (code bug): the round-trip law does hold for the string, pair,
list, set and map codecs, but fails for the vector codec: decoding the
serialized bytes of the one-element vector `[42]` into a fresh empty
destination returns `-2` with an empty destination instead of result 0
with `[42]` restored.  The cause is the slip at `stl_types.hpp:164`:
`deserialize(s, &v[i])` applies `[i]` to the *pointer* `v`, so the
nested decode is this vector decoder itself re-entered on `*v` — it
clears the just-resized vector and consumes the element bytes `42` as a
fresh count — rather than the per-element decode the specification
describes. -/
theorem roundtrip_law_and_vector_bug :
    deserializeVector u64Codec (byteStream (serializeVector u64Codec [42])) []
        = VecResult.ok (-2, [], []) ∧
    RoundTrip stringCodec ∧
    (∀ {α β : Type} (ca : Codec α) (cb : Codec β),
       RoundTrip ca → RoundTrip cb → RoundTrip (pairCodec ca cb)) ∧
    (∀ {α : Type} (c : Codec α), RoundTrip c → RoundTrip (listCodec c)) ∧
    (∀ {α : Type} [LinearOrder α] (c : Codec α),
       RoundTrip c → RoundTrip (setCodec c)) ∧
    (∀ {κ α : Type} [LinearOrder κ] (ck : Codec κ) (cv : Codec α),
       RoundTrip ck → RoundTrip cv → RoundTrip (mapCodec ck cv)) := by
  refine ⟨?_, string_roundTrip,
    fun ca cb ha hb => pair_roundTrip_of ca cb ha hb,
    fun c hc => list_roundTrip_of c hc,
    fun c hc => set_roundTrip_of c hc,
    fun ck cv hk hv => map_roundTrip_of ck cv hk hv⟩
  have e3 : deserializeU64 ([] : RStream) = (-2, 0, []) := by decide
  have v3 : ∀ d : List Nat, deserializeVector u64Codec [] d
      = VecResult.ok (-2, [], []) := by
    intro d
    unfold deserializeVector
    rw [e3]
    norm_num
  have e2 : deserializeU64 (byteStream (encodeU64 42)) = (0, 42, []) := by
    decide
  have v2 : ∀ d : List Nat,
      deserializeVector u64Codec (byteStream (encodeU64 42)) d
        = VecResult.ok (-2, [], []) := by
    intro d
    unfold deserializeVector
    rw [e2]
    norm_num [v3]
  have e1 : deserializeU64 (byteStream (serializeVector u64Codec [42]))
      = (0, 1, byteStream (encodeU64 42)) := by decide
  unfold deserializeVector
  rw [e1]
  norm_num [v2]

/-- Witness for C1: the failing vector input is checked by the theorem
itself; here the map round-trip component is instantiated at a concrete
three-entry map from `uint64_t` keys to string values with two
duplicate-valued empty text elements. -/
theorem roundtrip_law_and_vector_bug_witness :
    (mapCodec u64Codec stringCodec).des
        (byteStream ((mapCodec u64Codec stringCodec).ser
          [(1, []), (2, [104, 105]), (7, [])]) ++ [])
        (mapCodec u64Codec stringCodec).dflt
      = (0, [(1, []), (2, [104, 105]), (7, [])], []) :=
  roundtrip_law_and_vector_bug.2.2.2.2.2 u64Codec stringCodec u64_roundTrip
    string_roundTrip [(1, []), (2, [104, 105]), (7, [])]
    (by
      simp only [mapCodec, u64Codec, stringCodec]
      refine ⟨by norm_num, by decide, by decide⟩) []

/-- C9: for every map or set stream of decodable elements — in
particular one whose N elements include two or more entries with equal
keys — deserialize returns success (0) and yields the left fold of the
container insertion, whose native deduplication keeps the first
occurrence of each key and ignores later ones (as the lookup equation
states); duplicates are never reported as a decode error. -/
theorem duplicate_keys_absorbed :
    (∀ {κ α : Type} [LinearOrder κ] (ck : Codec κ) (cv : Codec α),
       RoundTrip ck → RoundTrip cv →
       ∀ (ps : List (κ × α)), (∀ p ∈ ps, ck.valid p.1 ∧ cv.valid p.2) →
       ps.length < 2 ^ 64 →
       ∀ (rest : RStream) (d : List (κ × α)),
         deserializeMap ck cv
             (byteStream (encodeU64 ps.length
               ++ (ps.map (serializePair ck cv)).flatten) ++ rest) d
           = (0, ps.foldl (fun m p => sortedInsertBy Prod.fst p m) [], rest)
         ∧ ∀ k : κ,
             lookupKey Prod.fst
               (ps.foldl (fun m p => sortedInsertBy Prod.fst p m) []) k
             = ps.find? (fun p => decide (p.1 = k))) ∧
    (∀ {α : Type} [LinearOrder α] (c : Codec α), RoundTrip c →
       ∀ (es : List α), (∀ x ∈ es, c.valid x) → es.length < 2 ^ 64 →
       ∀ (rest : RStream) (d : List α),
         deserializeSet c
             (byteStream (encodeU64 es.length ++ (es.map c.ser).flatten)
               ++ rest) d
           = (0, es.foldl (fun m x => sortedInsertBy id x m) [], rest)) := by
  constructor
  · intro κ α inst ck cv hk hv ps hval hlen rest d
    constructor
    · rw [byteStream_append, List.append_assoc]
      unfold deserializeMap
      rw [deserializeU64_enc ps.length hlen]
      simp only [ne_eq, not_true_eq_false, if_false, ite_false]
      rw [ordDesLoop_eq_noHint Prod.fst _ _ _ _ _ List.Pairwise.nil]
      rw [ordDesLoopNoHint_serialized Prod.fst _ (serializePair ck cv) ps
        (fun p hp rest2 => deserializePair_serialized ck cv hk hv p
          (hval p hp).1 (hval p hp).2 rest2) rest []]
    · intro k
      rw [lookupKey_foldl_insert Prod.fst ps [] k List.Pairwise.nil]
      rfl
  · intro α inst c hc es hval hlen rest d
    rw [byteStream_append, List.append_assoc]
    unfold deserializeSet
    rw [deserializeU64_enc es.length hlen]
    simp only [ne_eq, not_true_eq_false, if_false, ite_false]
    rw [ordDesLoop_eq_noHint id _ _ _ _ _ List.Pairwise.nil]
    rw [ordDesLoopNoHint_serialized id _ c.ser es
      (fun x hx rest2 => hc x (hval x hx) rest2) rest []]

/-- Witness for C9: a two-entry map stream with the duplicate key 1
(values 20 then 30) decodes successfully to the one-entry map keeping
the first value 20. -/
theorem duplicate_keys_absorbed_witness :
    deserializeMap u64Codec u64Codec
        (byteStream (encodeU64 (([(1, 20), (1, 30)] : List (Nat × Nat)).length)
          ++ (([(1, 20), (1, 30)] : List (Nat × Nat)).map
              (serializePair u64Codec u64Codec)).flatten) ++ []) []
      = (0, [(1, 20)], []) := by
  have h := (duplicate_keys_absorbed.1 u64Codec u64Codec u64_roundTrip
    u64_roundTrip [(1, 20), (1, 30)]
    (by simp only [u64Codec]; decide) (by decide) [] []).1
  rw [h]
  decide

/-- C7: every composite decoder (pair, vector, list, set, map) returns,
on failure, exactly the first non-zero result code produced by a nested
decode — the count prefix, an element, or, for the vector decoder
(whose per-slot call `deserialize(s, &v[i])` at `stl_types.hpp:164` is
the recursive vector decode), the nested vector decode — unchanged, and
stops at that point: the remaining stream is exactly the stream that
failing nested decode left. -/
theorem composite_first_nonzero_propagated :
    (∀ {α β : Type} (ca : Codec α) (cb : Codec β) (s : RStream) (p : α × β)
       (res : Int) (p' : α × β) (s' : RStream),
       deserializePair ca cb s p = (res, p', s') → res ≠ 0 →
       (ca.des s p.1 = (res, p'.1, s')) ∨
       ((ca.des s p.1).1 = 0 ∧
         cb.des (ca.des s p.1).2.2 p.2 = (res, p'.2, s'))) ∧
    (∀ {α : Type} (c : Codec α) (s : RStream) (v : List α) (res : Int)
       (v' : List α) (s' : RStream),
       deserializeVector c s v = VecResult.ok (res, v', s') → res ≠ 0 →
       ((deserializeU64 s).1 = res ∧ s' = (deserializeU64 s).2.2) ∨
       ((deserializeU64 s).1 = 0 ∧ (deserializeU64 s).2.1 ≠ 0 ∧
         deserializeVector c (deserializeU64 s).2.2
             (List.replicate (deserializeU64 s).2.1 c.dflt)
           = VecResult.ok (res, v', s'))) ∧
    (∀ {α : Type} (c : Codec α) (s : RStream) (v : List α) (res : Int)
       (v' : List α) (s' : RStream),
       deserializeList c s v = (res, v', s') → res ≠ 0 →
       ((deserializeU64 s).1 = res ∧ s' = (deserializeU64 s).2.2) ∨
       ((deserializeU64 s).1 = 0 ∧
         FirstFail (fun t => c.des t c.dflt) (deserializeU64 s).2.1
           (deserializeU64 s).2.2 res s')) ∧
    (∀ {α : Type} [LinearOrder α] (c : Codec α) (s : RStream) (v : List α)
       (res : Int) (v' : List α) (s' : RStream),
       deserializeSet c s v = (res, v', s') → res ≠ 0 →
       ((deserializeU64 s).1 = res ∧ s' = (deserializeU64 s).2.2) ∨
       ((deserializeU64 s).1 = 0 ∧
         FirstFail (fun t => c.des t c.dflt) (deserializeU64 s).2.1
           (deserializeU64 s).2.2 res s')) ∧
    (∀ {κ α : Type} [LinearOrder κ] (ck : Codec κ) (cv : Codec α)
       (s : RStream) (m : List (κ × α)) (res : Int) (m' : List (κ × α))
       (s' : RStream),
       deserializeMap ck cv s m = (res, m', s') → res ≠ 0 →
       ((deserializeU64 s).1 = res ∧ s' = (deserializeU64 s).2.2) ∨
       ((deserializeU64 s).1 = 0 ∧
         FirstFail (fun t => deserializePair ck cv t (ck.dflt, cv.dflt))
           (deserializeU64 s).2.1 (deserializeU64 s).2.2 res s')) := by
  refine ⟨?_, ?_, ?_, ?_, ?_⟩
  · intro α β ca cb s p res p' s' h hres
    unfold deserializePair at h
    by_cases h0 : (ca.des s p.1).1 = 0
    · simp only [h0, ne_eq, not_true_eq_false, if_false, ite_false,
        Prod.mk.injEq] at h
      obtain ⟨h1, h2, h3⟩ := h
      subst h1
      subst h3
      refine Or.inr ⟨h0, ?_⟩
      rw [← h2]
    · simp [h0, Prod.mk.injEq] at h
      obtain ⟨h1, h2, h3⟩ := h
      subst h1
      subst h3
      refine Or.inl ?_
      rw [← h2]
  · intro α c s v res v' s' h hres
    exact deserializeVector_failure_step c s v res v' s' h hres
  · intro α c s v res v' s' h hres
    unfold deserializeList at h
    by_cases h0 : (deserializeU64 s).1 = 0
    · simp only [h0, ne_eq, not_true_eq_false, if_false, ite_false] at h
      exact Or.inr ⟨h0, listDesLoop_firstFail c _ _ _ _ _ _ h hres⟩
    · simp [h0, Prod.mk.injEq] at h
      exact Or.inl ⟨h.1, h.2.2.symm⟩
  · intro α inst c s v res v' s' h hres
    unfold deserializeSet at h
    by_cases h0 : (deserializeU64 s).1 = 0
    · simp only [h0, ne_eq, not_true_eq_false, if_false, ite_false] at h
      exact Or.inr ⟨h0, ordDesLoop_firstFail id _ _ _ _ _ _ _ _ h hres⟩
    · simp [h0, Prod.mk.injEq] at h
      exact Or.inl ⟨h.1, h.2.2.symm⟩
  · intro κ α inst ck cv s m res m' s' h hres
    unfold deserializeMap at h
    by_cases h0 : (deserializeU64 s).1 = 0
    · simp only [h0, ne_eq, not_true_eq_false, if_false, ite_false] at h
      exact Or.inr ⟨h0, ordDesLoop_firstFail Prod.fst _ _ _ _ _ _ _ _ h hres⟩
    · simp [h0, Prod.mk.injEq] at h
      exact Or.inl ⟨h.1, h.2.2.symm⟩

/-- Witness for C7: a list stream declaring two `uint64_t` elements but
providing none fails with `-2`, and the failure is characterised by a
`FirstFail` run of the nested element decodes. -/
theorem composite_first_nonzero_propagated_witness :
    ((deserializeU64 (byteStream (encodeU64 2))).1 = -2 ∧
      ([] : RStream) = (deserializeU64 (byteStream (encodeU64 2))).2.2) ∨
    ((deserializeU64 (byteStream (encodeU64 2))).1 = 0 ∧
      FirstFail (fun t => u64Codec.des t u64Codec.dflt)
        (deserializeU64 (byteStream (encodeU64 2))).2.1
        (deserializeU64 (byteStream (encodeU64 2))).2.2 (-2) []) :=
  composite_first_nonzero_propagated.2.2.1 u64Codec (byteStream (encodeU64 2))
    [] (-2) [0] [] (by decide) (by decide)
